import Mathlib

/-!
Verification of the gnostr-core log state engine (Rust sources under src/).

Bytes are modelled as natural numbers; every place where the machine code
truncates to 8 bits the model applies an explicit `% 2 ^ 8`.  Fallible code
returns `Option` or `Except`.  Definitions follow the Rust sources
(src/src/core.rs, src/src/oplog/mod.rs, src/src/storage/mod.rs,
src/src/encoding.rs); components of the repository that are not present
under src/ are modelled from the specification and marked as such in their
doc comments.
-/

namespace Gnostr

abbrev Byte := Nat

/-- Modelled from the spec: little-endian 2-byte encoding used by the
compact-encoding primitive (crate::compact_encoding is not under src/). -/
def u16le (n : Nat) : List Byte :=
  [n % 2 ^ 8, n / 2 ^ 8 % 2 ^ 8]

/-- Modelled from the spec: little-endian 4-byte encoding used by the
compact-encoding primitive. -/
def u32le (n : Nat) : List Byte :=
  [n % 2 ^ 8, n / 2 ^ 8 % 2 ^ 8, n / 2 ^ 16 % 2 ^ 8, n / 2 ^ 24 % 2 ^ 8]

/-- Modelled from the spec: little-endian 8-byte encoding used by the
compact-encoding primitive and by the fixed-stride tree-node records. -/
def u64le (n : Nat) : List Byte :=
  [n % 2 ^ 8, n / 2 ^ 8 % 2 ^ 8, n / 2 ^ 16 % 2 ^ 8, n / 2 ^ 24 % 2 ^ 8,
   n / 2 ^ 32 % 2 ^ 8, n / 2 ^ 40 % 2 ^ 8, n / 2 ^ 48 % 2 ^ 8, n / 2 ^ 56 % 2 ^ 8]

/-- Modelled from the spec: read a little-endian 8-byte unsigned integer. -/
def leU64 (bs : List Byte) : Nat :=
  match bs with
  | b0 :: b1 :: b2 :: b3 :: b4 :: b5 :: b6 :: b7 :: _ =>
      b0 + 2 ^ 8 * b1 + 2 ^ 16 * b2 + 2 ^ 24 * b3 +
      2 ^ 32 * b4 + 2 ^ 40 * b5 + 2 ^ 48 * b6 + 2 ^ 56 * b7
  | _ => 0

/-- Modelled from the spec: compact encoding of an unsigned integer
(values 0 to 252 in one byte; 253, 254, 255 announce a u16, u32, u64). -/
def encUInt (n : Nat) : List Byte :=
  if n ≤ 252 then [n]
  else if n ≤ 0xffff then 253 :: u16le n
  else if n ≤ 0xffffffff then 254 :: u32le n
  else 255 :: u64le n

/-- Modelled from the spec: compact decoding of an unsigned integer. -/
def decUInt : List Byte → Option (Nat × List Byte)
  | [] => none
  | b :: rest =>
    if b ≤ 252 then some (b, rest)
    else if b = 253 then
      match rest with
      | b0 :: b1 :: r => some (b0 + 2 ^ 8 * b1, r)
      | _ => none
    else if b = 254 then
      match rest with
      | b0 :: b1 :: b2 :: b3 :: r =>
          some (b0 + 2 ^ 8 * b1 + 2 ^ 16 * b2 + 2 ^ 24 * b3, r)
      | _ => none
    else
      match rest with
      | b0 :: b1 :: b2 :: b3 :: b4 :: b5 :: b6 :: b7 :: r =>
          some (b0 + 2 ^ 8 * b1 + 2 ^ 16 * b2 + 2 ^ 24 * b3 +
                2 ^ 32 * b4 + 2 ^ 40 * b5 + 2 ^ 48 * b6 + 2 ^ 56 * b7, r)
      | _ => none

/-- Modelled from the spec: compact encoding of a byte string
(length as a compact uint, then the payload bytes). -/
def encBytes (b : List Byte) : List Byte :=
  encUInt b.length ++ b

/-- Modelled from the spec: compact decoding of a byte string. -/
def decBytes (buf : List Byte) : Option (List Byte × List Byte) :=
  match decUInt buf with
  | none => none
  | some (len, rest) =>
      if len ≤ rest.length then some (rest.take len, rest.drop len) else none

/-- Modelled from the spec: raw 32-byte field (hashes, public keys). -/
def decFixed32 (buf : List Byte) : Option (List Byte × List Byte) :=
  if 32 ≤ buf.length then some (buf.take 32, buf.drop 32) else none

/-- Modelled from the spec: compact encoding of an array of byte strings. -/
def encBytesArray (l : List (List Byte)) : List Byte :=
  encUInt l.length ++ (l.map encBytes).flatten

/-- Modelled from the spec: decode a fixed number of byte strings. -/
def decBytesN : Nat → List Byte → Option (List (List Byte) × List Byte)
  | 0, buf => some ([], buf)
  | n + 1, buf =>
    match decBytes buf with
    | none => none
    | some (s, r) =>
      match decBytesN n r with
      | none => none
      | some (ss, r2) => some (s :: ss, r2)

/-- Modelled from the spec: compact decoding of an array of byte strings. -/
def decBytesArray (buf : List Byte) : Option (List (List Byte) × List Byte) :=
  match decUInt buf with
  | none => none
  | some (len, rest) => decBytesN len rest

/-- Merkle-tree node (src/src/storage/node.rs declaration as used by
src/src/encoding.rs and src/src/storage/mod.rs): flat `index`, 32-byte
`hash`, and the `length` in bytes of the blocks under the node. -/
structure Node where
  index : Nat
  hash : List Byte
  length : Nat
deriving DecidableEq, Repr

/-- CompactEncoding of a Node (src/src/encoding.rs lines 50-61):
index, then length, then the fixed 32-byte hash. -/
def encNode (n : Node) : List Byte :=
  encUInt n.index ++ encUInt n.length ++ n.hash

/-- CompactEncoding decode of a Node (src/src/encoding.rs lines 63-68). -/
def decNode (buf : List Byte) : Option (Node × List Byte) :=
  match decUInt buf with
  | none => none
  | some (index, r1) =>
    match decUInt r1 with
    | none => none
    | some (length, r2) =>
      match decFixed32 r2 with
      | none => none
      | some (hash, r3) => some (⟨index, hash, length⟩, r3)

/-- Oplog header types record (src/src/oplog/mod.rs lines 57-63).
Rust strings are modelled by their UTF-8 byte lists. -/
structure HeaderTypes where
  tree : List Byte
  bitfield : List Byte
  signer : List Byte
deriving DecidableEq, Repr

/-- Oplog header tree record (src/src/oplog/mod.rs lines 90-95): only
`fork` and `length` are present in the source. -/
structure HeaderTree where
  fork : Nat
  length : Nat
deriving DecidableEq, Repr

/-- Oplog header signer record (src/src/oplog/mod.rs lines 115-120).
Keys are modelled by their byte lists (ed25519_dalek public and secret
keys are 32 bytes each, cf. src/src/storage/mod.rs line 11). -/
structure HeaderSigner where
  publicKey : List Byte
  secretKey : Option (List Byte)
deriving DecidableEq, Repr

/-- Oplog header hints record (src/src/oplog/mod.rs lines 168-171). -/
structure HeaderHints where
  reorgs : List (List Byte)
deriving DecidableEq, Repr

/-- Oplog header (src/src/oplog/mod.rs lines 4-12). -/
structure Header where
  types : HeaderTypes
  tree : HeaderTree
  signer : HeaderSigner
  hints : HeaderHints
  contiguousLength : Nat
deriving DecidableEq, Repr

/-- UTF-8 bytes of "blake2b". -/
def blake2bBytes : List Byte := [98, 108, 97, 107, 101, 50, 98]

/-- UTF-8 bytes of "raw". -/
def rawBytes : List Byte := [114, 97, 119]

/-- UTF-8 bytes of "ed25519". -/
def ed25519Bytes : List Byte := [101, 100, 50, 53, 53, 49, 57]

/-- Header::new_from_keys (src/src/oplog/mod.rs lines 14-48). -/
def Header.newFromKeys (publicKey : List Byte) (secretKey : Option (List Byte)) : Header :=
  { types := { tree := blake2bBytes, bitfield := rawBytes, signer := ed25519Bytes }
    tree := { fork := 0, length := 0 }
    signer := { publicKey := publicKey, secretKey := secretKey }
    hints := { reorgs := [] }
    contiguousLength := 0 }

/-- CompactEncoding of HeaderTypes (src/src/oplog/mod.rs lines 65-76). -/
def encHeaderTypes (t : HeaderTypes) : List Byte :=
  encBytes t.tree ++ encBytes t.bitfield ++ encBytes t.signer

/-- CompactEncoding decode of HeaderTypes (src/src/oplog/mod.rs lines 78-88). -/
def decHeaderTypes (buf : List Byte) : Option (HeaderTypes × List Byte) :=
  match decBytes buf with
  | none => none
  | some (tree, r1) =>
    match decBytes r1 with
    | none => none
    | some (bitfield, r2) =>
      match decBytes r2 with
      | none => none
      | some (signer, r3) => some (⟨tree, bitfield, signer⟩, r3)

/-- CompactEncoding of HeaderTree (src/src/oplog/mod.rs lines 97-106). -/
def encHeaderTree (t : HeaderTree) : List Byte :=
  encUInt t.fork ++ encUInt t.length

/-- CompactEncoding decode of HeaderTree (src/src/oplog/mod.rs lines 108-112). -/
def decHeaderTree (buf : List Byte) : Option (HeaderTree × List Byte) :=
  match decUInt buf with
  | none => none
  | some (fork, r1) =>
    match decUInt r1 with
    | none => none
    | some (length, r2) => some (⟨fork, length⟩, r2)

/-- CompactEncoding of HeaderSigner (src/src/oplog/mod.rs lines 122-150):
the public key bytes as a byte string; the secret key bytes as a byte
string when present, else a single zero byte (an empty byte string). -/
def encHeaderSigner (s : HeaderSigner) : List Byte :=
  encBytes s.publicKey ++
    (match s.secretKey with
     | some sk => encBytes sk
     | none => [0])

/-- CompactEncoding decode of HeaderSigner (src/src/oplog/mod.rs lines
152-165).  The unwraps of PublicKey::from_bytes and SecretKey::from_bytes
panic unless the byte strings are exactly 32 bytes; a panic is modelled
as `none`. -/
def decHeaderSigner (buf : List Byte) : Option (HeaderSigner × List Byte) :=
  match decBytes buf with
  | none => none
  | some (pkb, r1) =>
    match decBytes r1 with
    | none => none
    | some (skb, r2) =>
      if pkb.length = 32 then
        if skb = [] then some (⟨pkb, none⟩, r2)
        else if skb.length = 32 then some (⟨pkb, some skb⟩, r2)
        else none
      else none

/-- CompactEncoding of HeaderHints (src/src/oplog/mod.rs lines 174-181). -/
def encHeaderHints (h : HeaderHints) : List Byte :=
  encBytesArray h.reorgs

/-- CompactEncoding decode of HeaderHints (src/src/oplog/mod.rs lines 183-187). -/
def decHeaderHints (buf : List Byte) : Option (HeaderHints × List Byte) :=
  match decBytesArray buf with
  | none => none
  | some (reorgs, r) => some (⟨reorgs⟩, r)

/-- CompactEncoding of Header (src/src/oplog/mod.rs lines 201-210): a
hard-coded version byte 0, then types, tree, signer, hints and
contiguous_length.  The source writes the version byte at buffer offset
0 and every later field at the running offset, so a from-scratch encode
is the concatenation below.  user_data is absent in the source (left as
a TODO there). -/
def encHeader (h : Header) : List Byte :=
  0 :: (encHeaderTypes h.types ++ encHeaderTree h.tree ++ encHeaderSigner h.signer ++
        encHeaderHints h.hints ++ encUInt h.contiguousLength)

/-- CompactEncoding decode of Header (src/src/oplog/mod.rs lines 212-231).
The panic on an unknown version is modelled as `none`. -/
def decHeader (buf : List Byte) : Option (Header × List Byte) :=
  match decUInt buf with
  | none => none
  | some (version, r0) =>
    if version = 0 then
      match decHeaderTypes r0 with
      | none => none
      | some (types, r1) =>
        match decHeaderTree r1 with
        | none => none
        | some (tree, r2) =>
          match decHeaderSigner r2 with
          | none => none
          | some (signer, r3) =>
            match decHeaderHints r3 with
            | none => none
            | some (hints, r4) =>
              match decUInt r4 with
              | none => none
              | some (contiguousLength, r5) =>
                  some (⟨types, tree, signer, hints, contiguousLength⟩, r5)
    else none

/-- Well-formedness of a header value producible by the system: the keys
have their fixed 32-byte sizes and every u64 or usize field fits in 64
bits. -/
def Header.wf (h : Header) : Prop :=
  h.signer.publicKey.length = 32 ∧
  (∀ sk, h.signer.secretKey = some sk → sk.length = 32) ∧
  h.tree.fork < 2 ^ 64 ∧ h.tree.length < 2 ^ 64 ∧ h.contiguousLength < 2 ^ 64 ∧
  h.types.tree.length < 2 ^ 64 ∧ h.types.bitfield.length < 2 ^ 64 ∧
  h.types.signer.length < 2 ^ 64 ∧
  h.hints.reorgs.length < 2 ^ 64 ∧ (∀ s ∈ h.hints.reorgs, s.length < 2 ^ 64)

instance (h : Header) : Decidable h.wf := by
  unfold Header.wf
  infer_instance

/-! Storage segment model (src/src/storage/mod.rs).  A segment is a byte
store addressed by offset; a write patches a contiguous range, a read
extracts one. -/

/-- HEADER_OFFSET (src/src/storage/mod.rs line 25). -/
def HEADER_OFFSET : Nat := 32

abbrev Mem := Nat → Byte

/-- Write `data` into the store at `offset` (the segment write contract
consumed by Storage, spec section 6). -/
def memWrite (m : Mem) (offset : Nat) (data : List Byte) : Mem :=
  fun a => if offset ≤ a ∧ a < offset + data.length then data.getD (a - offset) 0 else m a

/-- Read `len` bytes at `offset` from the store. -/
def memRead (m : Mem) (offset len : Nat) : List Byte :=
  (List.range len).map (fun k => m (offset + k))

/-- Modelled from the spec: Node::to_bytes (src/src/storage/node.rs is not
under src/) — the 40-byte tree record `hash:fixed_32, length:u64`. -/
def nodeToBytes (n : Node) : List Byte :=
  n.hash ++ u64le n.length

/-- Modelled from the spec: Node::from_bytes (src/src/storage/node.rs is
not under src/) — split the 40-byte record back into hash and length. -/
def nodeFromBytes (index : Nat) (buf : List Byte) : Node :=
  ⟨index, buf.take 32, leU64 (buf.drop 32)⟩

/-- Storage::get_node (src/src/storage/mod.rs lines 296-304): read 40
bytes at HEADER_OFFSET + 40 * index from the tree segment. -/
def getNodeAt (m : Mem) (index : Nat) : Node :=
  nodeFromBytes index (memRead m (HEADER_OFFSET + 40 * index) 40)

/-- Storage::put_node (src/src/storage/mod.rs lines 310-317): write the
node record at HEADER_OFFSET + 40 * node.index in the tree segment. -/
def putNodeAt (m : Mem) (n : Node) : Mem :=
  memWrite m (HEADER_OFFSET + 40 * n.index) (nodeToBytes n)

/-! Flat-tree helpers and Storage::data_offset. -/

/-- The largest power of two that is at most `n` (for `n` at least 1);
this is the `factor` computed by the inner while loop of the flat-tree
dependency's full_roots. -/
def largestPow2Le (n : Nat) : Nat := 2 ^ Nat.log 2 n

/-- Modelled from the flat-tree dependency of the source:
flat_tree::full_roots pushes, greedily from the largest power of two, the
flat index `offset + factor - 1` of each full subtree covering the
leaves below `index / 2`, advancing `offset` by `2 * factor`. -/
def fullRootsGo (tmp offset : Nat) : List Nat :=
  if h : tmp = 0 then []
  else
    let factor := largestPow2Le tmp
    (offset + factor - 1) :: fullRootsGo (tmp - factor) (offset + 2 * factor)
termination_by tmp
decreasing_by
  have h1 : 0 < largestPow2Le tmp := pow_pos (by norm_num) _
  omega

/-- flat_tree::full_roots (flat-tree dependency): the full-subtree roots
covering the leaves left of the (even) flat index. -/
def fullRoots (index : Nat) : List Nat :=
  fullRootsGo (index / 2) 0

/-- tree_index (src/src/storage/mod.rs lines 471-474). -/
def treeIndex (index : Nat) : Nat := 2 * index

/-- find_node (src/src/storage/mod.rs lines 449-457). -/
def findNode (nodes : List Node) (index : Nat) : Option Node :=
  match nodes with
  | [] => none
  | n :: rest => if n.index = index then some n else findNode rest index

/-- Error outcomes of Storage::data_offset: a backend read error
propagated by `?`, or the final `unreachable!()` statement. -/
inductive DOErr where
  | ioError
  | unreachableHit
deriving DecidableEq, Repr

/-- The cached-or-storage lookup of the block node's length used in both
return paths of data_offset (src/src/storage/mod.rs lines 258-261 and
283-286). -/
def leafLenLookup (getN : Nat → Option Node) (cached : List Node) (blockIndex : Nat) :
    Option Nat :=
  match findNode cached blockIndex with
  | some node => some node.length
  | none => (getN blockIndex).map Node.length

/-- The for loop of Storage::data_offset (src/src/storage/mod.rs lines
265-289): accumulate each root node's length, decrement `pending`, and
return the range once `pending` reaches zero. -/
def dataOffsetGo (getN : Nat → Option Node) (cached : List Node) (blockIndex : Nat) :
    List Nat → Nat → Nat → Except DOErr (Nat × Nat)
  | [], _, _ => .error .unreachableHit
  | root :: rest, offset, pending =>
    match getN root with
    | none => .error .ioError
    | some node =>
      let offset2 := offset + node.length
      let pending2 := pending - 1
      if 0 < pending2 then dataOffsetGo getN cached blockIndex rest offset2 pending2
      else
        match leafLenLookup getN cached blockIndex with
        | none => .error .ioError
        | some len => .ok (offset2, offset2 + len)

/-- Storage::data_offset (src/src/storage/mod.rs lines 249-292).  The
returned Range is modelled as the pair (start, end). -/
def dataOffset (getN : Nat → Option Node) (cached : List Node) (index : Nat) :
    Except DOErr (Nat × Nat) :=
  let roots := fullRoots (treeIndex index)
  let offset := 0
  let pending := roots.length
  let blockIndex := treeIndex index
  if pending = 0 then
    match leafLenLookup getN cached blockIndex with
    | none => .error .ioError
    | some len => .ok (offset, offset + len)
  else dataOffsetGo getN cached blockIndex roots offset pending

/-! The byte-offset tree walk of spec section 4.1, used as the second
definition of claim C7 (refinement target, written from the spec's
words, not from the source). -/

/-- Modelled from the spec: binary walk down a full subtree whose leaves
are [a, a + 2 ^ h); descending right adds the left child's length field. -/
def walkDown (nodeLen : Nat → Nat) (i : Nat) : Nat → Nat → Nat
  | _, 0 => 0
  | a, h + 1 =>
      let half := 2 ^ h
      if i < a + half then walkDown nodeLen i a h
      else nodeLen (2 * a + half - 1) + walkDown nodeLen i (a + half) h

/-- Modelled from the spec: walk across the root cover of `tmp` committed
blocks starting at leaf base `base`; full roots left of the target
contribute their length fields, then the walk descends into the root
covering the target leaf. -/
def byteOffsetGo (nodeLen : Nat → Nat) (i : Nat) (tmp base : Nat) : Nat :=
  if h : tmp = 0 then 0
  else
    let factor := largestPow2Le tmp
    if i < base + factor then walkDown nodeLen i base (Nat.log 2 tmp)
    else nodeLen (2 * base + factor - 1) + byteOffsetGo nodeLen i (tmp - factor) (base + factor)
termination_by tmp
decreasing_by
  have h1 : 0 < largestPow2Le tmp := pow_pos (by norm_num) _
  omega

/-- Modelled from the spec: byte_offset(block_index) for a tree of
`length` committed blocks (spec section 4.1). -/
def byteOffsetWalk (nodeLen : Nat → Nat) (length i : Nat) : Nat :=
  byteOffsetGo nodeLen i length 0

/-- Sum of the leaf length fields of the blocks [a, a + n), used to relate
the two byte-offset computations. -/
def leafSum (nodeLen : Nat → Nat) (a : Nat) : Nat → Nat
  | 0 => 0
  | n + 1 => nodeLen (2 * a) + leafSum nodeLen (a + 1) n

/-! The append_batch commit path (src/src/core.rs lines 87-117).  The
MerkleTree, BlockStore and Oplog::append_changeset components live in
repository modules that are not under src/; they are modelled from the
spec (sections 4.1, 4.2, 4.3) below.  Hash and signature computations are
parameters of the model: the claims under verification do not depend on
their values. -/

/-- The cryptographic primitives used by the changeset (spec section 4.1
steps 2-4): leaf hash, parent hash, root signing input, signature. -/
structure CryptoOps where
  leafHash : Nat → List Byte → List Byte
  parentHash : Nat → List Byte → List Byte → List Byte
  rootSignable : Nat → Nat → List (List Byte) → List Byte
  signWith : List Byte → List Byte → List Byte

/-- PartialKeypair (src/src/storage/mod.rs lines 27-31). -/
structure PartialKeypair where
  public : List Byte
  secret : Option (List Byte)
deriving DecidableEq, Repr

/-- Modelled from the spec: the committed tree state tuple of spec
section 3 plus the derived byte_length read by core.rs
(self.tree.byte_length). -/
structure MerkleTreeState where
  roots : List Node
  length : Nat
  byteLength : Nat
  fork : Nat
  signature : Option (List Byte)
deriving DecidableEq, Repr

/-- Modelled from the spec: a changeset (spec sections 3 and 4.1) —
the working copy of roots (kept rightmost-first, paired with each root's
leaf span), the growing length and byte_length, the seeded fork and
prior length, the nodes introduced so far, and the signature once
hash_and_sign has run. -/
structure Changeset where
  rootsRev : List (Node × Nat)
  length : Nat
  ancestors : Nat
  byteLength : Nat
  fork : Nat
  batchNodes : List Node
  signature : Option (List Byte)
deriving Repr

/-- Lowest set bit of `n`: the leaf span of the full subtree rooted at
flat index `n - 1`.  Used to seed the changeset root spans. -/
def lowbit (n : Nat) : Nat := n - (n &&& (n - 1))

/-- Modelled from the spec: fold the two rightmost roots into their
parent while they are siblings (spec section 4.1 step 2).  The fuel
argument bounds the number of folds; each fold shortens the stack, so
the stack length is enough fuel.  Returns the new stack and the created
parent nodes. -/
def foldRootsGo (H : CryptoOps) : Nat → List (Node × Nat) → List (Node × Nat) × List Node
  | 0, rs => (rs, [])
  | fuel + 1, rs =>
    match rs with
    | (r, s) :: (l, s2) :: rest =>
      if s = s2 then
        let parent : Node :=
          ⟨l.index + s, H.parentHash (l.length + r.length) l.hash r.hash, l.length + r.length⟩
        let step := foldRootsGo H fuel ((parent, 2 * s) :: rest)
        (step.1, parent :: step.2)
      else (rs, [])
    | _ => (rs, [])

/-- Modelled from the spec: MerkleTree::changeset() (spec section 4.1) —
a working set seeded with the current roots, length, byte_length, fork. -/
def changesetOf (t : MerkleTreeState) : Changeset :=
  { rootsRev := (t.roots.map (fun n => (n, lowbit (n.index + 1)))).reverse
    length := t.length
    ancestors := t.length
    byteLength := t.byteLength
    fork := t.fork
    batchNodes := []
    signature := none }

/-- Modelled from the spec: Changeset::append (spec section 4.1 step 2) —
emit the leaf node at flat index 2 * length, fold roots right to left,
grow byte_length and length; returns the payload byte count as
core.rs accumulates it into batch_length. -/
def changesetAppend (H : CryptoOps) (cs : Changeset) (data : List Byte) : Changeset × Nat :=
  let leaf : Node := ⟨2 * cs.length, H.leafHash data.length data, data.length⟩
  let folded := foldRootsGo H ((leaf, 1) :: cs.rootsRev).length ((leaf, 1) :: cs.rootsRev)
  ({ cs with
      rootsRev := folded.1
      length := cs.length + 1
      byteLength := cs.byteLength + data.length
      batchNodes := cs.batchNodes ++ (leaf :: folded.2) },
   data.length)

/-- Modelled from the spec: Changeset::hash_and_sign (spec section 4.1
steps 3-4) — sign the root commitment with the secret key. -/
def hashAndSign (H : CryptoOps) (_publicKey secretKey : List Byte) (cs : Changeset) :
    Changeset :=
  let signable :=
    H.rootSignable cs.length cs.fork (cs.rootsRev.reverse.map (fun p => p.1.hash))
  { cs with signature := some (H.signWith secretKey signable) }

/-- Modelled from the spec: BlockStore::append_batch (spec section 4.2) —
purely functional: Slice{offset = current_byte_length, data =
concat(payloads)}. -/
def blockStoreAppendBatch (batch : List (List Byte)) (_totalBytes currentByteLength : Nat) :
    Nat × List Byte :=
  (currentByteLength, batch.flatten)

/-- Oplog entry tree upgrade (spec section 3; declared as
EntryTreeUpgrade in the oplog module used by src/src/core.rs). -/
structure EntryTreeUpgrade where
  fork : Nat
  ancestors : Nat
  length : Nat
  signature : List Byte
  nodes : List Node
deriving DecidableEq, Repr

/-- Oplog entry bitfield update (spec section 3). -/
structure EntryBitfieldUpdate where
  drop : Bool
  start : Nat
  length : Nat
deriving DecidableEq, Repr

/-- Oplog entry (spec section 3): optional tree upgrade and optional
bitfield update, selected by the two header bits. -/
structure Entry where
  treeUpgrade : Option EntryTreeUpgrade
  bitfieldUpdate : Option EntryBitfieldUpdate
deriving DecidableEq, Repr

/-- Modelled from the spec: Oplog::append_changeset (spec section 4.3) —
encodes one entry carrying tree_upgrade = {fork, ancestors = prior
length, length, signature, nodes = changeset nodes} and no bitfield
update, appends it to the oplog and returns it for flushing. -/
def oplogAppendChangeset (entries : List Entry) (cs : Changeset)
    (_atomicWithBitfield : Bool) : List Entry × Entry :=
  let e : Entry :=
    { treeUpgrade := some
        { fork := cs.fork
          ancestors := cs.ancestors
          length := cs.length
          signature := cs.signature.getD []
          nodes := cs.batchNodes }
      bitfieldUpdate := none }
  (entries ++ [e], e)

/-- Observable storage effects of one append_batch call, in program
order: a flush to the data segment, a flush of an oplog entry, and the
in-memory apply of the changeset to the tree. -/
inductive IoEvent where
  | dataFlush (offset : Nat) (bytes : List Byte)
  | oplogFlush (entry : Entry)
  | applyChangeset
deriving DecidableEq, Repr

/-- AppendOutcome (src/src/core.rs lines 33-37). -/
structure AppendOutcome where
  length : Nat
  byteLength : Nat
deriving DecidableEq, Repr

/-- The Hypercore controller state owned by append_batch
(src/src/core.rs lines 19-30); the oplog's entry list stands for the
oplog component's mutable state. -/
structure Hypercore where
  keyPair : PartialKeypair
  tree : MerkleTreeState
  oplogEntries : List Entry
deriving DecidableEq, Repr

inductive HcError where
  | noSecret
deriving DecidableEq, Repr

/-- Hypercore::append_batch (src/src/core.rs lines 87-117), with the
sequence of storage effects it performs.  Faithful to the source: the
guard only checks for the secret key; the changeset is built and signed,
the data slice is flushed, the oplog entry is flushed, and the function
returns AppendOutcome{length: 0, byte_length: 0} without applying the
changeset to the in-memory tree. -/
def appendBatch (H : CryptoOps) (hc : Hypercore) (batch : List (List Byte)) :
    List IoEvent × Except HcError (Hypercore × AppendOutcome) :=
  match hc.keyPair.secret with
  | none => ([], .error .noSecret)
  | some secretKey =>
    let start := (changesetOf hc.tree, 0)
    let built := batch.foldl
      (fun acc data =>
        let step := changesetAppend H acc.1 data
        (step.1, acc.2 + step.2))
      start
    let cs := hashAndSign H hc.keyPair.public secretKey built.1
    let slice := blockStoreAppendBatch batch built.2 hc.tree.byteLength
    let appended := oplogAppendChangeset hc.oplogEntries cs false
    ([.dataFlush slice.1 slice.2, .oplogFlush appended.2],
     .ok ({ hc with oplogEntries := appended.1 }, { length := 0, byteLength := 0 }))

/-- Outcome projection used to inspect append_batch results. -/
def outcomeOf (r : Except HcError (Hypercore × AppendOutcome)) : Option (Nat × Nat) :=
  match r with
  | .ok (_, o) => some (o.length, o.byteLength)
  | .error _ => none

/-! Concrete instances used to evaluate the model at specific inputs. -/

/-- Crypto parameters where every hash and signature is the empty byte
string; the claims under test do not depend on hash values. -/
def trivialOps : CryptoOps :=
  { leafHash := fun _ _ => []
    parentHash := fun _ _ _ => []
    rootSignable := fun _ _ _ => []
    signWith := fun _ _ => [] }

/-- A 32-byte public key of zeros. -/
def pk0 : List Byte := List.replicate 32 0

/-- A 32-byte secret key of ones. -/
def sk0 : List Byte := List.replicate 32 1

/-- A 32-byte hash of sevens. -/
def hash0 : List Byte := List.replicate 32 7

/-- The committed state of an empty log. -/
def emptyTree : MerkleTreeState :=
  { roots := [], length := 0, byteLength := 0, fork := 0, signature := none }

/-- A fresh writable hypercore over an empty log. -/
def hc0 : Hypercore :=
  { keyPair := { public := pk0, secret := some sk0 }, tree := emptyTree, oplogEntries := [] }

/-- A hypercore whose key pair has no secret half. -/
def hcNoSecret : Hypercore :=
  { keyPair := { public := pk0, secret := none }, tree := emptyTree, oplogEntries := [] }

/-- The committed state after one five-byte block. -/
def oneBlockTree : MerkleTreeState :=
  { roots := [⟨0, [], 5⟩], length := 1, byteLength := 5, fork := 0, signature := some [] }

/-- A writable hypercore holding one committed five-byte block. -/
def hc5 : Hypercore :=
  { keyPair := { public := pk0, secret := some sk0 }, tree := oneBlockTree, oplogEntries := [] }

/-- UTF-8 bytes of "hello". -/
def helloBytes : List Byte := [104, 101, 108, 108, 111]

/-- UTF-8 bytes of "ab". -/
def abBytes : List Byte := [97, 98]

/-- UTF-8 bytes of "cde". -/
def cdeBytes : List Byte := [99, 100, 101]

/-- The fresh header over pk0 without a secret key. -/
def h0 : Header := Header.newFromKeys pk0 none

/-- The fresh header over pk0 with secret key sk0. -/
def h1 : Header := Header.newFromKeys pk0 (some sk0)

/-- A concrete node with a 32-byte hash. -/
def n0 : Node := { index := 3, hash := hash0, length := 5 }

/-- A tree-node store in which every node has length zero (a committed
log whose blocks are all empty). -/
def zeroStore : Nat → Node := fun j => { index := j, hash := [], length := 0 }

/-- An all-zero byte store. -/
def zeroMem : Mem := fun _ => 0

/-! Round-trip lemmas for the compact encoding. -/

theorem leU64_u64le (n : Nat) (h : n < 2 ^ 64) (rest : List Byte) :
    leU64 (u64le n ++ rest) = n := by
  simp only [u64le, leU64, List.cons_append, List.nil_append]
  omega

theorem decUInt_encUInt (n : Nat) (h : n < 2 ^ 64) (rest : List Byte) :
    decUInt (encUInt n ++ rest) = some (n, rest) := by
  unfold encUInt
  split_ifs with h1 h2 h3
  · simp [decUInt, h1]
  · simp only [u16le, List.cons_append, List.nil_append, decUInt]
    norm_num
    omega
  · simp only [u32le, List.cons_append, List.nil_append, decUInt]
    norm_num
    omega
  · simp only [u64le, List.cons_append, List.nil_append, decUInt]
    norm_num
    omega

theorem decBytes_encBytes (b : List Byte) (h : b.length < 2 ^ 64) (rest : List Byte) :
    decBytes (encBytes b ++ rest) = some (b, rest) := by
  unfold decBytes encBytes
  rw [List.append_assoc, decUInt_encUInt b.length h]
  simp [List.take_left, List.drop_left]

theorem decFixed32_append (b : List Byte) (h : b.length = 32) (rest : List Byte) :
    decFixed32 (b ++ rest) = some (b, rest) := by
  unfold decFixed32
  rw [if_pos (by simp [h])]
  rw [← h]
  simp [List.take_left, List.drop_left]

theorem decBytesN_enc (l : List (List Byte)) (h : ∀ s ∈ l, s.length < 2 ^ 64)
    (rest : List Byte) :
    decBytesN l.length ((l.map encBytes).flatten ++ rest) = some (l, rest) := by
  induction l with
  | nil => simp [decBytesN]
  | cons s ss ih =>
    simp only [List.map_cons, List.flatten_cons, List.length_cons, List.append_assoc]
    unfold decBytesN
    rw [decBytes_encBytes s (h s (by simp)) _]
    dsimp only
    rw [ih (fun x hx => h x (by simp [hx]))]

theorem decBytesArray_encBytesArray (l : List (List Byte)) (hlen : l.length < 2 ^ 64)
    (h : ∀ s ∈ l, s.length < 2 ^ 64) (rest : List Byte) :
    decBytesArray (encBytesArray l ++ rest) = some (l, rest) := by
  unfold decBytesArray encBytesArray
  rw [List.append_assoc, decUInt_encUInt l.length hlen]
  exact decBytesN_enc l h rest

theorem decNode_encNode (n : Node) (hi : n.index < 2 ^ 64) (hl : n.length < 2 ^ 64)
    (hh : n.hash.length = 32) (rest : List Byte) :
    decNode (encNode n ++ rest) = some (n, rest) := by
  unfold decNode encNode
  rw [List.append_assoc, List.append_assoc, decUInt_encUInt n.index hi]
  dsimp only
  rw [decUInt_encUInt n.length hl]
  dsimp only
  rw [decFixed32_append n.hash hh]

theorem decHeaderTypes_enc (t : HeaderTypes) (h1 : t.tree.length < 2 ^ 64)
    (h2 : t.bitfield.length < 2 ^ 64) (h3 : t.signer.length < 2 ^ 64) (rest : List Byte) :
    decHeaderTypes (encHeaderTypes t ++ rest) = some (t, rest) := by
  unfold decHeaderTypes encHeaderTypes
  rw [List.append_assoc, List.append_assoc, decBytes_encBytes t.tree h1]
  dsimp only
  rw [decBytes_encBytes t.bitfield h2]
  dsimp only
  rw [decBytes_encBytes t.signer h3]

theorem decHeaderTree_enc (t : HeaderTree) (h1 : t.fork < 2 ^ 64)
    (h2 : t.length < 2 ^ 64) (rest : List Byte) :
    decHeaderTree (encHeaderTree t ++ rest) = some (t, rest) := by
  unfold decHeaderTree encHeaderTree
  rw [List.append_assoc, decUInt_encUInt t.fork h1]
  dsimp only
  rw [decUInt_encUInt t.length h2]

theorem decHeaderSigner_enc (s : HeaderSigner) (h1 : s.publicKey.length = 32)
    (h2 : ∀ sk, s.secretKey = some sk → sk.length = 32) (rest : List Byte) :
    decHeaderSigner (encHeaderSigner s ++ rest) = some (s, rest) := by
  obtain ⟨pk, sko⟩ := s
  simp only at h1 h2
  unfold decHeaderSigner encHeaderSigner
  cases sko with
  | none =>
    dsimp only
    have hz : (([0] : List Byte) ++ rest) = encBytes [] ++ rest := by simp [encBytes, encUInt]
    rw [List.append_assoc, decBytes_encBytes pk (by omega)]
    dsimp only
    rw [hz, decBytes_encBytes [] (by simp)]
    dsimp only
    rw [if_pos h1, if_pos rfl]
  | some sk =>
    have hsk : sk.length = 32 := h2 sk rfl
    dsimp only
    rw [List.append_assoc, decBytes_encBytes pk (by omega)]
    dsimp only
    rw [decBytes_encBytes sk (by omega)]
    dsimp only
    rw [if_pos h1, if_neg (by intro hemp; rw [hemp] at hsk; simp at hsk), if_pos hsk]

theorem decHeaderHints_enc (h : HeaderHints) (h1 : h.reorgs.length < 2 ^ 64)
    (h2 : ∀ s ∈ h.reorgs, s.length < 2 ^ 64) (rest : List Byte) :
    decHeaderHints (encHeaderHints h ++ rest) = some (h, rest) := by
  unfold decHeaderHints encHeaderHints
  rw [decBytesArray_encBytesArray h.reorgs h1 h2]

theorem decHeader_encHeader (h : Header) (hwf : h.wf) (rest : List Byte) :
    decHeader (encHeader h ++ rest) = some (h, rest) := by
  obtain ⟨w1, w2, w3, w4, w5, w6, w7, w8, w9, w10⟩ := hwf
  unfold decHeader encHeader
  have hv : ((0 : Byte) :: (encHeaderTypes h.types ++ encHeaderTree h.tree ++
      encHeaderSigner h.signer ++ encHeaderHints h.hints ++ encUInt h.contiguousLength)) ++ rest
      = encUInt 0 ++ (encHeaderTypes h.types ++ (encHeaderTree h.tree ++
        (encHeaderSigner h.signer ++ (encHeaderHints h.hints ++
        (encUInt h.contiguousLength ++ rest))))) := by
    simp [encUInt]
  rw [hv, decUInt_encUInt 0 (by norm_num)]
  dsimp only
  rw [if_pos rfl, decHeaderTypes_enc h.types w6 w7 w8]
  dsimp only
  rw [decHeaderTree_enc h.tree w3 w4]
  dsimp only
  rw [decHeaderSigner_enc h.signer w1 w2]
  dsimp only
  rw [decHeaderHints_enc h.hints w9 w10]
  dsimp only
  rw [decUInt_encUInt h.contiguousLength w5]

/-! Byte-store lemmas for the tree segment. -/

theorem memRead_memWrite (m : Mem) (o : Nat) (data : List Byte) (len : Nat)
    (h : data.length = len) :
    memRead (memWrite m o data) o len = data := by
  subst h
  apply List.ext_getElem
  · simp [memRead]
  · intro i hi1 hi2
    simp only [memRead, List.getElem_map, List.getElem_range, memWrite]
    rw [if_pos (by simp [memRead] at hi1; omega)]
    have : o + i - o = i := by omega
    rw [this]
    rw [List.getD_eq_getElem]

theorem memWrite_frame (m : Mem) (o : Nat) (data : List Byte) (a : Nat)
    (h : a < o ∨ o + data.length ≤ a) :
    memWrite m o data a = m a := by
  unfold memWrite
  rw [if_neg (by omega)]

theorem memRead_congr (m1 m2 : Mem) (o len : Nat)
    (h : ∀ k, k < len → m1 (o + k) = m2 (o + k)) :
    memRead m1 o len = memRead m2 o len := by
  unfold memRead
  apply List.map_congr_left
  intro k hk
  exact h k (List.mem_range.mp hk)

theorem leU64_u64le_self (n : Nat) (h : n < 2 ^ 64) : leU64 (u64le n) = n := by
  simp only [u64le, leU64]
  omega

theorem nodeToBytes_length (n : Node) (h32 : n.hash.length = 32) :
    (nodeToBytes n).length = 40 := by
  simp [nodeToBytes, u64le, h32]

theorem nodeFromBytes_nodeToBytes (n : Node) (h32 : n.hash.length = 32)
    (h64 : n.length < 2 ^ 64) :
    nodeFromBytes n.index (nodeToBytes n) = n := by
  unfold nodeFromBytes nodeToBytes
  rw [← h32, List.take_left, List.drop_left]
  rw [leU64_u64le_self n.length h64]

/-! Lemmas about Storage::data_offset. -/

theorem findNode_spec (nodes : List Node) (i : Nat) (n : Node)
    (h : findNode nodes i = some n) : n ∈ nodes ∧ n.index = i := by
  induction nodes with
  | nil => simp [findNode] at h
  | cons m rest ih =>
    unfold findNode at h
    by_cases hm : m.index = i
    · rw [if_pos hm] at h
      obtain rfl : m = n := by simpa using h
      exact ⟨by simp, hm⟩
    · rw [if_neg hm] at h
      obtain ⟨h1, h2⟩ := ih h
      exact ⟨by simp [h1], h2⟩

theorem leafLenLookup_total (st : Nat → Node) (cached : List Node) (bi : Nat)
    (hcache : ∀ n ∈ cached, n = st n.index) :
    leafLenLookup (fun j => some (st j)) cached bi = some (st bi).length := by
  unfold leafLenLookup
  cases hf : findNode cached bi with
  | none => simp
  | some n =>
    obtain ⟨hmem, hidx⟩ := findNode_spec cached bi n hf
    have : n = st bi := by rw [hcache n hmem, hidx]
    simp [this]

theorem dataOffsetGo_ne_unreachable (getN : Nat → Option Node) (cached : List Node)
    (bi : Nat) :
    ∀ (rs : List Nat) (offset : Nat), rs ≠ [] →
      dataOffsetGo getN cached bi rs offset rs.length ≠ Except.error DOErr.unreachableHit := by
  intro rs
  induction rs with
  | nil => intro offset hne; exact absurd rfl hne
  | cons r rest ih =>
    intro offset _
    unfold dataOffsetGo
    cases getN r with
    | none => simp
    | some node =>
      dsimp only
      cases rest with
      | nil =>
        rw [if_neg (by simp)]
        cases leafLenLookup getN cached bi <;> simp
      | cons r2 rest2 =>
        rw [if_pos (by simp)]
        have : (r2 :: rest2).length + 1 - 1 = (r2 :: rest2).length := by simp
        rw [List.length_cons, this]
        exact ih (offset + node.length) (by simp)

theorem dataOffsetGo_total_sum (st : Nat → Node) (cached : List Node) (bi : Nat)
    (hcache : ∀ n ∈ cached, n = st n.index) :
    ∀ (rs : List Nat) (offset : Nat), rs ≠ [] →
      dataOffsetGo (fun j => some (st j)) cached bi rs offset rs.length =
        Except.ok (offset + (rs.map (fun r => (st r).length)).sum,
                   offset + (rs.map (fun r => (st r).length)).sum + (st bi).length) := by
  intro rs
  induction rs with
  | nil => intro offset hne; exact absurd rfl hne
  | cons r rest ih =>
    intro offset _
    unfold dataOffsetGo
    dsimp only
    cases rest with
    | nil =>
      rw [if_neg (by simp)]
      rw [leafLenLookup_total st cached bi hcache]
      simp
    | cons r2 rest2 =>
      rw [if_pos (by simp)]
      have hlen : (r2 :: rest2).length + 1 - 1 = (r2 :: rest2).length := by simp
      rw [List.length_cons, hlen, ih (offset + (st r).length) (by simp)]
      simp [add_assoc]

/-! Arithmetic facts about the greedy power-of-two decomposition. -/

theorem largestPow2Le_pos (n : Nat) : 0 < largestPow2Le n :=
  pow_pos (by norm_num) _

theorem largestPow2Le_le (n : Nat) (h : 1 ≤ n) : largestPow2Le n ≤ n :=
  Nat.pow_log_le_self 2 (by omega)

theorem lt_two_mul_largestPow2Le (n : Nat) (h : 1 ≤ n) : n < 2 * largestPow2Le n := by
  have h2 := Nat.lt_pow_succ_log_self (by norm_num : 1 < 2) n
  unfold largestPow2Le
  rw [pow_succ] at h2
  omega

theorem largestPow2Le_dvd (m n : Nat) (h : largestPow2Le m ≤ largestPow2Le n) :
    largestPow2Le m ∣ largestPow2Le n :=
  pow_dvd_pow 2 ((Nat.pow_le_pow_iff_right (by norm_num)).mp h)

theorem largestPow2Le_zero : largestPow2Le 0 = 1 := by
  unfold largestPow2Le
  rw [Nat.log_zero_right]
  rfl

theorem leafSum_add (f : Nat → Nat) :
    ∀ (m a n : Nat), leafSum f a (m + n) = leafSum f a m + leafSum f (a + m) n := by
  intro m
  induction m with
  | zero => intro a n; simp [leafSum]
  | succ m ih =>
    intro a n
    have hc : m + 1 + n = (m + n) + 1 := by omega
    rw [hc]
    show f (2 * a) + leafSum f (a + 1) (m + n) = leafSum f a (m + 1) + leafSum f (a + (m + 1)) n
    rw [ih (a + 1) n]
    show _ = f (2 * a) + leafSum f (a + 1) m + leafSum f (a + (m + 1)) n
    have he : a + 1 + m = a + (m + 1) := by omega
    rw [he]
    omega

theorem node_span_sum (f : Nat → Nat)
    (hcons : ∀ b h, f (2 * (b * 2 ^ (h + 1)) + 2 ^ (h + 1) - 1) =
        f (2 * (b * 2 ^ (h + 1)) + 2 ^ h - 1) + f (2 * (b * 2 ^ (h + 1)) + 3 * 2 ^ h - 1)) :
    ∀ (h b : Nat), f (2 * (b * 2 ^ h) + 2 ^ h - 1) = leafSum f (b * 2 ^ h) (2 ^ h) := by
  intro h
  induction h with
  | zero =>
    intro b
    show f (2 * (b * 2 ^ 0) + 2 ^ 0 - 1) = leafSum f (b * 2 ^ 0) (2 ^ 0)
    norm_num [leafSum]
  | succ h ih =>
    intro b
    rw [hcons b h]
    have hin1 : 2 * (b * 2 ^ (h + 1)) + 2 ^ h = 2 * ((2 * b) * 2 ^ h) + 2 ^ h := by ring
    have hin2 : 2 * (b * 2 ^ (h + 1)) + 3 * 2 ^ h = 2 * ((2 * b + 1) * 2 ^ h) + 2 ^ h := by ring
    have e1 : 2 * (b * 2 ^ (h + 1)) + 2 ^ h - 1 = 2 * ((2 * b) * 2 ^ h) + 2 ^ h - 1 := by
      rw [hin1]
    have e2 : 2 * (b * 2 ^ (h + 1)) + 3 * 2 ^ h - 1 = 2 * ((2 * b + 1) * 2 ^ h) + 2 ^ h - 1 := by
      rw [hin2]
    rw [e1, e2, ih (2 * b), ih (2 * b + 1)]
    have e4 : leafSum f (b * 2 ^ (h + 1)) (2 ^ (h + 1)) =
        leafSum f ((2 * b) * 2 ^ h) (2 ^ h) + leafSum f ((2 * b + 1) * 2 ^ h) (2 ^ h) := by
      have e5 : b * 2 ^ (h + 1) = (2 * b) * 2 ^ h := by ring
      have e6 : (2 : Nat) ^ (h + 1) = 2 ^ h + 2 ^ h := by rw [pow_succ]; ring
      rw [e5]
      conv_lhs => rw [e6]
      rw [leafSum_add]
      have e7 : (2 * b) * 2 ^ h + 2 ^ h = (2 * b + 1) * 2 ^ h := by ring
      rw [e7]
    rw [e4]

theorem fullRootsGo_ne_nil (tmp offset : Nat) (h : tmp ≠ 0) : fullRootsGo tmp offset ≠ [] := by
  rw [fullRootsGo]
  rw [dif_neg h]
  simp

theorem fullRootsGo_sum (f : Nat → Nat)
    (hcons : ∀ b h, f (2 * (b * 2 ^ (h + 1)) + 2 ^ (h + 1) - 1) =
        f (2 * (b * 2 ^ (h + 1)) + 2 ^ h - 1) + f (2 * (b * 2 ^ (h + 1)) + 3 * 2 ^ h - 1)) :
    ∀ (tmp a : Nat), largestPow2Le tmp ∣ a →
      ((fullRootsGo tmp (2 * a)).map f).sum = leafSum f a tmp := by
  intro tmp
  induction tmp using Nat.strong_induction_on with
  | _ tmp ih =>
    intro a hdvd
    by_cases h0 : tmp = 0
    · subst h0
      rw [fullRootsGo]
      simp [leafSum]
    · rw [fullRootsGo, dif_neg h0]
      obtain ⟨b, hb⟩ := hdvd
      have hFpos : 0 < largestPow2Le tmp := largestPow2Le_pos tmp
      have hFle : largestPow2Le tmp ≤ tmp := largestPow2Le_le tmp (by omega)
      have hFlt : tmp < 2 * largestPow2Le tmp := lt_two_mul_largestPow2Le tmp (by omega)
      have hhead : f (2 * a + largestPow2Le tmp - 1) = leafSum f a (largestPow2Le tmp) := by
        have hb2 : a = b * 2 ^ Nat.log 2 tmp := by
          rw [hb]; unfold largestPow2Le; ring
        rw [hb2]
        exact node_span_sum f hcons (Nat.log 2 tmp) b
      have htail : ((fullRootsGo (tmp - largestPow2Le tmp)
          (2 * a + 2 * largestPow2Le tmp)).map f).sum =
          leafSum f (a + largestPow2Le tmp) (tmp - largestPow2Le tmp) := by
        have harg : 2 * a + 2 * largestPow2Le tmp = 2 * (a + largestPow2Le tmp) := by ring
        rw [harg]
        apply ih (tmp - largestPow2Le tmp) (by omega)
        by_cases hz : tmp - largestPow2Le tmp = 0
        · rw [hz, largestPow2Le_zero]
          exact one_dvd _
        · have h1 : largestPow2Le (tmp - largestPow2Le tmp) ≤ tmp - largestPow2Le tmp :=
            largestPow2Le_le _ (by omega)
          have h2 : largestPow2Le (tmp - largestPow2Le tmp) ≤ largestPow2Le tmp := by omega
          have h3 : largestPow2Le (tmp - largestPow2Le tmp) ∣ largestPow2Le tmp :=
            largestPow2Le_dvd _ _ h2
          exact Dvd.dvd.add (h3.trans (Dvd.intro b hb.symm)) h3
      rw [List.map_cons, List.sum_cons, hhead, htail]
      rw [← leafSum_add f (largestPow2Le tmp) a (tmp - largestPow2Le tmp)]
      congr 1
      omega

theorem walkDown_sum (f : Nat → Nat)
    (hcons : ∀ b h, f (2 * (b * 2 ^ (h + 1)) + 2 ^ (h + 1) - 1) =
        f (2 * (b * 2 ^ (h + 1)) + 2 ^ h - 1) + f (2 * (b * 2 ^ (h + 1)) + 3 * 2 ^ h - 1)) :
    ∀ (h b i : Nat), b * 2 ^ h ≤ i → i < b * 2 ^ h + 2 ^ h →
      walkDown f i (b * 2 ^ h) h = leafSum f (b * 2 ^ h) (i - b * 2 ^ h) := by
  intro h
  induction h with
  | zero =>
    intro b i h1 h2
    have hib : i = b * 2 ^ 0 := by norm_num at h1 h2 ⊢; omega
    rw [hib]
    simp [walkDown, leafSum]
  | succ h ih =>
    intro b i h1 h2
    have hsp : (2 : Nat) ^ (h + 1) = 2 ^ h + 2 ^ h := by rw [pow_succ]; ring
    have eB : b * 2 ^ (h + 1) = (2 * b) * 2 ^ h := by ring
    rw [walkDown]
    by_cases hc : i < b * 2 ^ (h + 1) + 2 ^ h
    · rw [if_pos hc]
      rw [eB] at hc h1 ⊢
      exact ih (2 * b) i h1 hc
    · rw [if_neg hc]
      have hspan : f (2 * (b * 2 ^ (h + 1)) + 2 ^ h - 1) =
          leafSum f (b * 2 ^ (h + 1)) (2 ^ h) := by
        have e1 : 2 * (b * 2 ^ (h + 1)) + 2 ^ h = 2 * ((2 * b) * 2 ^ h) + 2 ^ h := by ring
        have e2 : 2 * (b * 2 ^ (h + 1)) + 2 ^ h - 1 = 2 * ((2 * b) * 2 ^ h) + 2 ^ h - 1 := by
          rw [e1]
        rw [e2, eB]
        exact node_span_sum f hcons h (2 * b)
      have eR : b * 2 ^ (h + 1) + 2 ^ h = (2 * b + 1) * 2 ^ h := by ring
      have hrec : walkDown f i (b * 2 ^ (h + 1) + 2 ^ h) h =
          leafSum f (b * 2 ^ (h + 1) + 2 ^ h) (i - (b * 2 ^ (h + 1) + 2 ^ h)) := by
        rw [eR]
        apply ih (2 * b + 1) i (by omega)
        have : (2 * b + 1) * 2 ^ h + 2 ^ h = b * 2 ^ (h + 1) + 2 ^ (h + 1) := by
          rw [hsp]; ring
        omega
      rw [hspan, hrec]
      rw [← leafSum_add f (2 ^ h) (b * 2 ^ (h + 1)) (i - (b * 2 ^ (h + 1) + 2 ^ h))]
      congr 1
      omega

theorem byteOffsetGo_sum (f : Nat → Nat)
    (hcons : ∀ b h, f (2 * (b * 2 ^ (h + 1)) + 2 ^ (h + 1) - 1) =
        f (2 * (b * 2 ^ (h + 1)) + 2 ^ h - 1) + f (2 * (b * 2 ^ (h + 1)) + 3 * 2 ^ h - 1)) :
    ∀ (tmp a i : Nat), largestPow2Le tmp ∣ a → a ≤ i → i < a + tmp →
      byteOffsetGo f i tmp a = leafSum f a (i - a) := by
  intro tmp
  induction tmp using Nat.strong_induction_on with
  | _ tmp ih =>
    intro a i hdvd h1 h2
    have h0 : tmp ≠ 0 := by omega
    rw [byteOffsetGo, dif_neg h0]
    obtain ⟨b, hb⟩ := hdvd
    have hFpos : 0 < largestPow2Le tmp := largestPow2Le_pos tmp
    have hFle : largestPow2Le tmp ≤ tmp := largestPow2Le_le tmp (by omega)
    have hFlt : tmp < 2 * largestPow2Le tmp := lt_two_mul_largestPow2Le tmp (by omega)
    have hb2 : a = b * 2 ^ Nat.log 2 tmp := by
      rw [hb]; unfold largestPow2Le; ring
    by_cases hc : i < a + largestPow2Le tmp
    · rw [if_pos hc]
      have hc2 : i < b * 2 ^ Nat.log 2 tmp + 2 ^ Nat.log 2 tmp := by
        rw [← hb2]
        unfold largestPow2Le at hc
        exact hc
      rw [hb2]
      exact walkDown_sum f hcons (Nat.log 2 tmp) b i (by rw [← hb2]; exact h1) hc2
    · rw [if_neg hc]
      have hspan : f (2 * a + largestPow2Le tmp - 1) = leafSum f a (largestPow2Le tmp) := by
        rw [hb2]
        exact node_span_sum f hcons (Nat.log 2 tmp) b
      have hrec : byteOffsetGo f i (tmp - largestPow2Le tmp) (a + largestPow2Le tmp) =
          leafSum f (a + largestPow2Le tmp) (i - (a + largestPow2Le tmp)) := by
        apply ih (tmp - largestPow2Le tmp) (by omega) _ _ _ (by omega) (by omega)
        by_cases hz : tmp - largestPow2Le tmp = 0
        · rw [hz, largestPow2Le_zero]
          exact one_dvd _
        · have hd1 : largestPow2Le (tmp - largestPow2Le tmp) ≤ tmp - largestPow2Le tmp :=
            largestPow2Le_le _ (by omega)
          have hd3 : largestPow2Le (tmp - largestPow2Le tmp) ∣ largestPow2Le tmp :=
            largestPow2Le_dvd _ _ (by omega)
          exact Dvd.dvd.add (hd3.trans (Dvd.intro b hb.symm)) hd3
      rw [hspan, hrec]
      rw [← leafSum_add f (largestPow2Le tmp) a (i - (a + largestPow2Le tmp))]
      congr 1
      omega

/-! Claim theorems. -/

/-- C2: if the key pair has no secret key, append_batch fails with the
NoSecret error before performing any storage write or any mutation of
the tree, oplog, or block store — the event trace is empty and the
error is returned with the caller's state untouched. -/
theorem append_batch_no_secret (H : CryptoOps) (hc : Hypercore) (batch : List (List Byte))
    (h : hc.keyPair.secret = none) :
    appendBatch H hc batch = ([], Except.error HcError.noSecret) := by
  unfold appendBatch
  rw [h]

theorem append_batch_no_secret_witness :
    appendBatch trivialOps hcNoSecret [[104]] = ([], Except.error HcError.noSecret) :=
  append_batch_no_secret trivialOps hcNoSecret [[104]] rfl

/-- C1 (failing input): appending the single block "hello" to a fresh
writable hypercore succeeds but returns AppendOutcome{length: 0,
byte_length: 0}, although the committed post-state the claim requires is
length 0 + 1 = 1 and byte_length 0 + 5 = 5. -/
theorem append_batch_outcome_zero_stub :
    outcomeOf (appendBatch trivialOps hc0 [helloBytes]).2 = some (0, 0) ∧
    hc0.tree.length + 1 = 1 ∧ hc0.tree.byteLength + helloBytes.length = 5 :=
  ⟨rfl, rfl, rfl⟩

/-- C3 (failing input): a successful append_batch of ["ab", "cde"] flushes
the concatenated payload to the data segment strictly before flushing the
oplog entry, but the trace contains no in-memory apply of the changeset at
all — the source never applies the changeset to the tree, so the claimed
data-flush before oplog-flush before apply chain does not hold. -/
theorem append_batch_write_order_no_apply :
    (appendBatch trivialOps hc0 [abBytes, cdeBytes]).1 =
      [IoEvent.dataFlush 0 [97, 98, 99, 100, 101],
       IoEvent.oplogFlush
         { treeUpgrade := some
             { fork := 0, ancestors := 0, length := 2, signature := [],
               nodes := [⟨0, [], 2⟩, ⟨2, [], 3⟩, ⟨1, [], 5⟩] }
           bitfieldUpdate := none }] ∧
    ((appendBatch trivialOps hc0 [abBytes, cdeBytes]).1.count IoEvent.applyChangeset) = 0 :=
  ⟨rfl, rfl⟩

/-- C6 (failing input): append_batch with an empty batch on a hypercore
holding one committed five-byte block still signs an empty changeset,
appends an oplog entry (flushing it to the oplog segment) and returns
the zeroed outcome instead of the current outcome (1, 5); there is no
empty-batch guard in the source. -/
theorem append_batch_empty_batch_flushes_oplog :
    (appendBatch trivialOps hc5 []).1 =
      [IoEvent.dataFlush 5 [],
       IoEvent.oplogFlush
         { treeUpgrade := some
             { fork := 0, ancestors := 1, length := 1, signature := [], nodes := [] }
           bitfieldUpdate := none }] ∧
    outcomeOf (appendBatch trivialOps hc5 []).2 = some (0, 0) ∧
    hc5.tree.length = 1 ∧ hc5.tree.byteLength = 5 :=
  ⟨rfl, rfl, rfl, rfl⟩

/-- C8: the freshly initialized header built from a public key and an
optional secret key has fork 0, length 0, contiguous_length 0, empty
reorg hints, types {tree: "blake2b", bitfield: "raw", signer:
"ed25519"}, and carries exactly the given keys. -/
theorem fresh_header_fields (pk : List Byte) (sk : Option (List Byte)) :
    (Header.newFromKeys pk sk).tree.fork = 0 ∧
    (Header.newFromKeys pk sk).tree.length = 0 ∧
    (Header.newFromKeys pk sk).contiguousLength = 0 ∧
    (Header.newFromKeys pk sk).hints.reorgs = [] ∧
    (Header.newFromKeys pk sk).types.tree = blake2bBytes ∧
    (Header.newFromKeys pk sk).types.bitfield = rawBytes ∧
    (Header.newFromKeys pk sk).types.signer = ed25519Bytes ∧
    (Header.newFromKeys pk sk).signer.publicKey = pk ∧
    (Header.newFromKeys pk sk).signer.secretKey = sk :=
  ⟨rfl, rfl, rfl, rfl, rfl, rfl, rfl, rfl, rfl⟩

/-- C5: encoding then decoding is the identity for every well-formed
header (including one whose signer has no secret key) and for every node
with a 32-byte hash. -/
theorem header_and_node_roundtrip :
    (∀ h : Header, h.wf → decHeader (encHeader h) = some (h, [])) ∧
    (∀ n : Node, n.index < 2 ^ 64 → n.length < 2 ^ 64 → n.hash.length = 32 →
      decNode (encNode n) = some (n, [])) := by
  constructor
  · intro h hwf
    have hrt := decHeader_encHeader h hwf []
    simpa using hrt
  · intro n hi hl hh
    have hrt := decNode_encNode n hi hl hh []
    simpa using hrt

theorem header_and_node_roundtrip_witness :
    decHeader (encHeader h0) = some (h0, []) ∧ decNode (encNode n0) = some (n0, []) :=
  ⟨header_and_node_roundtrip.1 h0 (by decide),
   header_and_node_roundtrip.2 n0 (by decide) (by decide) (by decide)⟩

/-- C4 (counterexample): the encoded header record does not have the
claimed shape version | types | user_data | tree{fork, length,
root_hash, signature} | signer | hints | contiguous_length.  At the
fresh header over pk0 no choice of user_data bytes, 32-byte root hash
and 64-byte signature makes the source encoding equal to that layout:
the source encoding is 59 bytes long while the claimed layout is at
least 155 bytes long. -/
theorem header_encoding_lacks_claimed_fields :
    ¬ ∃ (ud rh sg : List Byte), rh.length = 32 ∧ sg.length = 64 ∧
      encHeader h0 = 0 :: (encHeaderTypes h0.types ++ ud ++ encUInt h0.tree.fork ++
        encUInt h0.tree.length ++ rh ++ sg ++ encHeaderSigner h0.signer ++
        encHeaderHints h0.hints ++ encUInt h0.contiguousLength) := by
  rintro ⟨ud, rh, sg, h32, h64, heq⟩
  have hlen := congrArg List.length heq
  have hL : (encHeader h0).length = 59 := by decide
  have hT : (encHeaderTypes h0.types).length = 20 := by decide
  have hS : (encHeaderSigner h0.signer).length = 34 := by decide
  have hH : (encHeaderHints h0.hints).length = 1 := by decide
  have hF : (encUInt h0.tree.fork).length = 1 := by decide
  have hLn : (encUInt h0.tree.length).length = 1 := by decide
  have hC : (encUInt h0.contiguousLength).length = 1 := by decide
  rw [hL] at hlen
  simp only [List.length_cons, List.length_append] at hlen
  rw [hT, hS, hH, hF, hLn, hC, h32, h64] at hlen
  omega

/-- C4 (amended): for every header value, the encoded header record
consists, in order, of: a version byte equal to 0, the types record
(tree, bitfield and signer strings), the tree record containing only
fork and length, the signer record (public key, then the optional
secret key or a single zero byte), the hints record (the reorgs array),
and contiguous_length; neither user_data nor a root hash nor a
signature is part of the encoding. -/
theorem header_encoding_layout (h : Header) :
    encHeader h =
      0 :: (encBytes h.types.tree ++ encBytes h.types.bitfield ++ encBytes h.types.signer ++
        encUInt h.tree.fork ++ encUInt h.tree.length ++
        encBytes h.signer.publicKey ++
        (match h.signer.secretKey with
         | some sk => encBytes sk
         | none => [0]) ++
        encUInt h.hints.reorgs.length ++ (h.hints.reorgs.map encBytes).flatten ++
        encUInt h.contiguousLength) := by
  simp [encHeader, encHeaderTypes, encHeaderTree, encHeaderSigner, encHeaderHints,
        encBytesArray, List.append_assoc]

/-- C10: Storage::data_offset never reaches its unreachable!() statement:
either the full-root set is empty and the function returns before the
loop, or the pending counter reaches zero on the final loop iteration
and the function returns there. -/
theorem data_offset_never_unreachable (getN : Nat → Option Node) (cached : List Node)
    (index : Nat) :
    dataOffset getN cached index ≠ Except.error DOErr.unreachableHit := by
  unfold dataOffset
  dsimp only
  by_cases h : (fullRoots (treeIndex index)).length = 0
  · rw [if_pos h]
    cases leafLenLookup getN cached (treeIndex index) <;> simp
  · rw [if_neg h]
    apply dataOffsetGo_ne_unreachable
    intro hnil
    rw [hnil] at h
    simp at h

/-- C7: when the required tree nodes are available (the cached nodes
agree with the store and every internal node's length is the sum of its
children's), data_offset returns the range [o, o + l) where o is the sum
of the length fields at the full-root flat indices of 2 * i and l is the
length field of the leaf at flat index 2 * i, and o equals the
tree-walk byte_offset of spec section 4.1 for any i below the committed
length. -/
theorem data_offset_matches_tree_walk (st : Nat → Node) (cached : List Node) (i L : Nat)
    (hcache : ∀ n ∈ cached, n = st n.index)
    (hcons : ∀ b h, (st (2 * (b * 2 ^ (h + 1)) + 2 ^ (h + 1) - 1)).length =
        (st (2 * (b * 2 ^ (h + 1)) + 2 ^ h - 1)).length +
        (st (2 * (b * 2 ^ (h + 1)) + 3 * 2 ^ h - 1)).length)
    (hiL : i < L) :
    dataOffset (fun j => some (st j)) cached i =
      Except.ok (((fullRoots (2 * i)).map (fun r => (st r).length)).sum,
        ((fullRoots (2 * i)).map (fun r => (st r).length)).sum + (st (2 * i)).length) ∧
    ((fullRoots (2 * i)).map (fun r => (st r).length)).sum =
      byteOffsetWalk (fun j => (st j).length) L i := by
  have hfr : fullRoots (2 * i) = fullRootsGo i 0 := by
    unfold fullRoots
    rw [Nat.mul_div_cancel_left i (by norm_num : 0 < 2)]
  have hsum : ((fullRootsGo i 0).map (fun r => (st r).length)).sum =
      leafSum (fun j => (st j).length) 0 i := by
    have hs := fullRootsGo_sum (fun j => (st j).length) hcons i 0 (by simp)
    rw [show (2 : Nat) * 0 = 0 from rfl] at hs
    exact hs
  constructor
  · unfold dataOffset
    dsimp only
    have hti : treeIndex i = 2 * i := rfl
    rw [hti, hfr]
    by_cases hz : i = 0
    · subst hz
      rw [if_pos (by rw [fullRootsGo]; simp)]
      rw [leafLenLookup_total st cached (2 * 0) hcache]
      rw [show fullRootsGo 0 0 = [] from by rw [fullRootsGo]; simp]
      simp
    · have hne := fullRootsGo_ne_nil i 0 hz
      rw [if_neg (by simpa using hne)]
      rw [dataOffsetGo_total_sum st cached (2 * i) hcache (fullRootsGo i 0) 0 hne]
      simp
  · rw [hfr, hsum]
    unfold byteOffsetWalk
    rw [byteOffsetGo_sum (fun j => (st j).length) hcons L 0 i (by simp) (by omega)
        (by omega)]
    simp

theorem data_offset_matches_tree_walk_witness :
    dataOffset (fun j => some (zeroStore j)) [] 1 =
      Except.ok (((fullRoots (2 * 1)).map (fun r => (zeroStore r).length)).sum,
        ((fullRoots (2 * 1)).map (fun r => (zeroStore r).length)).sum +
          (zeroStore (2 * 1)).length) ∧
    ((fullRoots (2 * 1)).map (fun r => (zeroStore r).length)).sum =
      byteOffsetWalk (fun j => (zeroStore j).length) 2 1 :=
  data_offset_matches_tree_walk zeroStore [] 1 2 (by simp)
    (fun b h => by simp [zeroStore]) (by norm_num)

/-- C9: put_node writes the node as exactly 40 bytes at byte offset
HEADER_OFFSET + 40 * index of the tree segment, touching no other byte;
get_node reads exactly those 40 bytes; and get_node after put_node
returns a node equal to the one written. -/
theorem put_node_get_node (m : Mem) (n : Node) (h32 : n.hash.length = 32)
    (h64 : n.length < 2 ^ 64) :
    (nodeToBytes n).length = 40 ∧
    getNodeAt (putNodeAt m n) n.index = n ∧
    (∀ a, a < HEADER_OFFSET + 40 * n.index ∨ HEADER_OFFSET + 40 * n.index + 40 ≤ a →
        putNodeAt m n a = m a) ∧
    (∀ (m2 : Mem) (i : Nat),
        (∀ k, k < 40 → m (HEADER_OFFSET + 40 * i + k) = m2 (HEADER_OFFSET + 40 * i + k)) →
        getNodeAt m i = getNodeAt m2 i) := by
  refine ⟨nodeToBytes_length n h32, ?_, ?_, ?_⟩
  · unfold getNodeAt putNodeAt
    rw [memRead_memWrite m _ _ 40 (nodeToBytes_length n h32)]
    exact nodeFromBytes_nodeToBytes n h32 h64
  · intro a ha
    exact memWrite_frame m _ _ a (by rw [nodeToBytes_length n h32]; exact ha)
  · intro m2 i hk
    unfold getNodeAt
    rw [memRead_congr m m2 _ 40 hk]

theorem put_node_get_node_witness :
    getNodeAt (putNodeAt zeroMem n0) n0.index = n0 :=
  (put_node_get_node zeroMem n0 (by decide) (by decide)).2.1

end Gnostr
